import Mathlib

/-!
# Verification of the minibus session core

A shallow embedding of the minibus in-process message bus:

* the per-participant outbox `Pump` (source: `function.Pump`), which maintains
  an unbounded FIFO as a slice `queue` plus a read `index`, with in-place slot
  clearing and a reset when the index reaches the slice length;
* the session orchestrator (source: `session.run`, `session.startFuncs`,
  `session.exchangeMessages`, `session.stopFuncs`, `session.onReady`,
  `session.onReturn`, `session.deliverMessage`, `session.subscribers`).

Participants are identified by natural numbers (`FId`), runtime message types
by natural numbers (`MTy`) together with a `TypeUniverse` saying which type
keys denote interfaces and which concrete types implement which interfaces
(Go's `reflect.Kind`/`Implements`).  Message payloads are modelled as
`Option Nat`, with `none` standing for a nil/empty payload.

Go maps and map-keyed sets are modelled as `Finset`s; the orchestrator,
barrier, exchange and teardown loops are modelled as deterministic functions
over an explicit schedule of the signals the corresponding Go selects receive.
Where a Go loop iterates a map and its net effect is order-independent (the
loop only inserts into / deletes from sets), the effect is denoted directly.
-/

/-- Participant identity (a `*function` pointer in the source). -/
abbrev FId := Nat

/-- Identity of a runtime message type (the `messageType` key in the source). -/
abbrev MTy := Nat

/-- An opaque message payload (`any` in the source); `none` models a
deliberately nil/empty payload. -/
abbrev Val := Option Nat

/-- The facts about runtime types that the source reads through `reflect`:
which type keys are interfaces (`Kind() == reflect.Interface`) and which
message types implement which interfaces (`Implements`). -/
structure TypeUniverse where
  isInterface : MTy → Bool
  implements : MTy → MTy → Bool

/-- `envelope`: a container for a message and its meta-data. -/
structure Envelope where
  publisher : FId
  messageID : Nat
  messageType : MTy
  message : Val
deriving DecidableEq

/-- The zero `envelope{}` value used to clear a forwarded slot in the pump's
queue. -/
def emptyEnvelope : Envelope := ⟨0, 0, 0, none⟩

/-- The envelope built by `function.Pump` when accepting a payload `m` from
the outbox: it stamps the next sequence number (`messageID.Add(1)`) and the
payload's runtime type (`reflect.TypeOf(m)`, modelled by `ty`). -/
def stamp (f : FId) (nextID : Nat) (ty : Val → MTy) (m : Val) : Envelope :=
  ⟨f, nextID + 1, ty m, m⟩

/-! ## The pump's internal buffer (`function.Pump`, part_010 lines 85-133)

The Go pump keeps `queue []envelope` and `index int`.  Accepting a payload
appends to `queue`; forwarding reads `queue[index]`, clears the slot in place,
increments `index`, and resets both when `index` reaches `len(queue)`. -/

/-- The pump's internal buffer: the slice of envelopes and the read index. -/
structure PumpBuf where
  queue : List Envelope
  index : Nat
deriving DecidableEq

/-- The envelopes still pending in the buffer, oldest first. -/
def PumpBuf.pending (b : PumpBuf) : List Envelope := b.queue.drop b.index

/-- The buffer's structural invariant: either the read index points into the
slice, or the buffer has been reset (empty slice, index zero). -/
def BufInv (b : PumpBuf) : Prop :=
  b.index < b.queue.length ∨ (b.queue = [] ∧ b.index = 0)

instance (b : PumpBuf) : Decidable (BufInv b) := by
  unfold BufInv; infer_instance

/-- Accepting an envelope from the outbox: `queue = append(queue, env)`. -/
def acceptEnv (b : PumpBuf) (env : Envelope) : PumpBuf :=
  { b with queue := b.queue ++ [env] }

/-- Forwarding the oldest entry to the bus.  Returns `none` when the bus case
is disabled (`len(queue) == 0`); otherwise returns the envelope sent
(`queue[index]`) and the buffer after `queue[index] = envelope{}`, `index++`,
and the reset `queue = queue[:0]; index = 0` once `index == len(queue)`. -/
def forwardEnv (b : PumpBuf) : Option (Envelope × PumpBuf) :=
  if b.queue = [] then none
  else
    let env := b.queue.getD b.index emptyEnvelope
    let q := b.queue.set b.index emptyEnvelope
    let i := b.index + 1
    some (env, if i = q.length then ⟨[], 0⟩ else ⟨q, i⟩)

/-- The naive FIFO queue that the buffer refines: accept appends, forward pops
the head. -/
def forwardSpec (q : List Envelope) : Option (Envelope × List Envelope) :=
  match q with
  | [] => none
  | e :: rest => some (e, rest)

/-- One interaction with the pump's buffer: accept a payload from the outbox,
or have the shared bus accept the oldest pending envelope. -/
inductive PumpOp where
  | accept (env : Envelope)
  | forward
deriving DecidableEq

/-- Run a sequence of buffer operations against the Go representation,
collecting the envelopes forwarded to the bus in order.  A `forward` while the
queue is empty is disabled in the source (the bus case of the select is nil)
and is a no-op here. -/
def runImpl : PumpBuf → List PumpOp → PumpBuf × List Envelope
  | b, [] => (b, [])
  | b, .accept env :: rest => runImpl (acceptEnv b env) rest
  | b, .forward :: rest =>
    match forwardEnv b with
    | none => runImpl b rest
    | some (env, b2) =>
      let r := runImpl b2 rest
      (r.1, env :: r.2)

/-- Run the same operations against the naive FIFO. -/
def runSpec : List Envelope → List PumpOp → List Envelope × List Envelope
  | q, [] => (q, [])
  | q, .accept env :: rest => runSpec (q ++ [env]) rest
  | q, .forward :: rest =>
    match q with
    | [] => runSpec [] rest
    | e :: q2 =>
      let r := runSpec q2 rest
      (r.1, e :: r.2)

/-- The envelopes accepted by a sequence of operations, in order. -/
def acceptedOf : PumpOp → Option Envelope
  | .accept env => some env
  | .forward => none

theorem length_set_eq (l : List Envelope) (i : Nat) (a : Envelope) :
    (l.set i a).length = l.length := by
  simp

theorem drop_set_of_lt (l : List Envelope) (i j : Nat) (a : Envelope)
    (h : i < j) : (l.set i a).drop j = l.drop j := by
  induction l generalizing i j with
  | nil => simp
  | cons x xs ih =>
    cases i with
    | zero =>
      cases j with
      | zero => exact absurd h (lt_irrefl 0)
      | succ j => simp
    | succ i =>
      cases j with
      | zero => exact absurd h (Nat.not_lt_zero _)
      | succ j =>
        simp only [List.set, List.drop_succ_cons]
        exact ih i j (Nat.lt_of_succ_lt_succ h)

/-- Accepting preserves the invariant and appends to the abstract queue. -/
theorem accept_refines (b : PumpBuf) (env : Envelope) (h : BufInv b) :
    BufInv (acceptEnv b env) ∧
      (acceptEnv b env).pending = b.pending ++ [env] := by
  rcases h with h | ⟨hq, hi⟩
  · constructor
    · left
      simp [acceptEnv]
      omega
    · simp [acceptEnv, PumpBuf.pending]
      exact List.drop_append_of_le_length (Nat.le_of_lt h)
  · constructor
    · left
      simp [acceptEnv, hq, hi]
    · simp [acceptEnv, PumpBuf.pending, hq, hi]

/-- An empty abstract queue disables the bus case. -/
theorem forward_none (b : PumpBuf) (h : BufInv b) (hp : b.pending = []) :
    forwardEnv b = none := by
  rcases h with h | ⟨hq, hi⟩
  · exfalso
    have : b.queue.length - b.index = 0 := by
      simpa [PumpBuf.pending] using congrArg List.length hp
    omega
  · simp [forwardEnv, hq]

/-- Forwarding refines popping the head of the abstract queue. -/
theorem forward_refines (b : PumpBuf) (h : BufInv b) (env : Envelope)
    (q2 : List Envelope) (hp : b.pending = env :: q2) :
    ∃ b2, forwardEnv b = some (env, b2) ∧ b2.pending = q2 ∧ BufInv b2 := by
  have hlt : b.index < b.queue.length := by
    rcases h with h | ⟨hq, hi⟩
    · exact h
    · rw [PumpBuf.pending, hq] at hp
      simp at hp
  have hne : b.queue ≠ [] := by
    intro hc
    rw [hc] at hlt
    exact Nat.not_lt_zero _ hlt
  have hdrop : b.queue.drop b.index =
      b.queue[b.index] :: b.queue.drop (b.index + 1) :=
    List.drop_eq_getElem_cons hlt
  have hpend : b.queue.getD b.index emptyEnvelope :: b.queue.drop (b.index + 1)
      = env :: q2 := by
    rw [List.getD_eq_getElem _ _ hlt, ← hdrop, ← PumpBuf.pending, hp]
  have henv : b.queue.getD b.index emptyEnvelope = env := (List.cons_eq_cons.mp hpend).1
  have hq2 : b.queue.drop (b.index + 1) = q2 := (List.cons_eq_cons.mp hpend).2
  refine ⟨if b.index + 1 = (b.queue.set b.index emptyEnvelope).length then
      ⟨[], 0⟩ else ⟨b.queue.set b.index emptyEnvelope, b.index + 1⟩,
    by simp only [forwardEnv, if_neg hne, henv], ?_, ?_⟩
  · split
    · next heq =>
      have hlen : b.index + 1 = b.queue.length := by simpa using heq
      rw [← hq2, PumpBuf.pending]
      simp [List.drop_eq_nil_of_le, hlen.ge]
    · next heq =>
      rw [← hq2, PumpBuf.pending]
      exact drop_set_of_lt _ _ _ _ (Nat.lt_succ_self _)
  · split
    · next heq => right; exact ⟨rfl, rfl⟩
    · next heq =>
      left
      simp only [List.length_set]
      have hlen : b.index + 1 ≠ b.queue.length := by simpa using heq
      omega

/-- Claim C5: the pump's slice-plus-read-index buffer is observationally
equivalent to a naive FIFO queue: starting from the pump's initial empty
buffer, every sequence of accept-from-outbox and forward-to-bus operations
forwards envelopes to the shared bus in exactly the order they were accepted
from the outbox (the forwarded sequence followed by the still-pending entries
is exactly the accepted sequence). -/
theorem pump_fifo_refinement (ops : List PumpOp) :
    (runImpl ⟨[], 0⟩ ops).2 = (runSpec [] ops).2 ∧
      (runImpl ⟨[], 0⟩ ops).1.pending = (runSpec [] ops).1 ∧
      (runImpl ⟨[], 0⟩ ops).2 ++ (runImpl ⟨[], 0⟩ ops).1.pending =
        ops.filterMap acceptedOf := by
  suffices h : ∀ (ops : List PumpOp) (b : PumpBuf), BufInv b →
      (runImpl b ops).2 = (runSpec b.pending ops).2 ∧
        (runImpl b ops).1.pending = (runSpec b.pending ops).1 ∧
        (runImpl b ops).2 ++ (runImpl b ops).1.pending =
          b.pending ++ ops.filterMap acceptedOf by
    have h0 : BufInv ⟨[], 0⟩ := Or.inr ⟨rfl, rfl⟩
    have := h ops ⟨[], 0⟩ h0
    simpa [PumpBuf.pending] using this
  intro ops
  induction ops with
  | nil =>
    intro b hb
    simp [runImpl, runSpec]
  | cons op rest ih =>
    intro b hb
    cases op with
    | accept env =>
      obtain ⟨hinv, habs⟩ := accept_refines b env hb
      have := ih (acceptEnv b env) hinv
      rw [habs] at this
      simpa [runImpl, runSpec, List.filterMap, acceptedOf] using this
    | forward =>
      cases hq : b.pending with
      | nil =>
        have hfe := forward_none b hb hq
        have := ih b hb
        simpa [runImpl, runSpec, hfe, hq, List.filterMap, acceptedOf]
          using this
      | cons env q2 =>
        obtain ⟨b2, hfe, habs, hinv⟩ := forward_refines b hb env q2 hq
        have := ih b2 hinv
        rw [habs] at this
        obtain ⟨h1, h2, h3⟩ := this
        refine ⟨?_, ?_, ?_⟩
        · simp [runImpl, runSpec, hfe, hq, h1]
        · simp [runImpl, runSpec, hfe, hq, h2]
        · simp [runImpl, runSpec, hfe, hq, h3, List.filterMap, acceptedOf]

/-! ## The pump loop (`function.Pump`, part_010 lines 76-136)

The loop concurrently offers: context cancellation; receiving a payload from
the outbox (which, once the channel closes, sets the local `outbox` variable
to nil); and, while the queue is non-empty, sending the oldest entry to the
shared bus.  It returns when the queue is empty and the outbox is nil, or on
cancellation.  The select is modelled by a schedule of events; an event whose
guarding channel is disabled (a receive after close, a bus send with an empty
queue) cannot fire and is skipped. -/

/-- One event the pump's select can observe. -/
inductive PEvent where
  | cancel
  | recv (m : Val)
  | closed
  | busAccept
deriving DecidableEq

/-- How the pump loop exited. -/
inductive PumpExit where
  | canceled
  | drained
deriving DecidableEq

/-- The pump's loop state: its buffer, whether the local `outbox` variable is
still non-nil, and the value of the `messageID` counter. -/
structure PumpState where
  buf : PumpBuf
  outboxOpen : Bool
  nextID : Nat
deriving DecidableEq

/-- The pump loop: returns the final loop state, the envelopes forwarded to
the shared bus in order, and how it exited (`none` when the schedule ran out
with the pump still running).  At the top of every iteration the loop first
checks the return condition `len(queue) == 0 && outbox == nil`. -/
def pumpRun (f : FId) (ty : Val → MTy) :
    PumpState → List PEvent → PumpState × List Envelope × Option PumpExit
  | ps, [] =>
    if ps.buf.queue = [] ∧ ps.outboxOpen = false then (ps, [], some .drained)
    else (ps, [], none)
  | ps, ev :: rest =>
    if ps.buf.queue = [] ∧ ps.outboxOpen = false then (ps, [], some .drained)
    else
      match ev with
      | .cancel => (ps, [], some .canceled)
      | .recv m =>
        if ps.outboxOpen then
          pumpRun f ty
            { ps with buf := acceptEnv ps.buf (stamp f ps.nextID ty m),
                      nextID := ps.nextID + 1 } rest
        else pumpRun f ty ps rest
      | .closed =>
        if ps.outboxOpen then pumpRun f ty { ps with outboxOpen := false } rest
        else pumpRun f ty ps rest
      | .busAccept =>
        match forwardEnv ps.buf with
        | some (env, b2) =>
          let r := pumpRun f ty { ps with buf := b2 } rest
          (r.1, env :: r.2.1, r.2.2)
        | none => pumpRun f ty ps rest

/-- A drained exit leaves an empty queue and a closed outbox. -/
theorem pumpRun_drained (f : FId) (ty : Val → MTy) (ps : PumpState)
    (evs : List PEvent)
    (h : (pumpRun f ty ps evs).2.2 = some PumpExit.drained) :
    (pumpRun f ty ps evs).1.buf.queue = [] ∧
      (pumpRun f ty ps evs).1.outboxOpen = false := by
  induction evs generalizing ps with
  | nil =>
    by_cases hc : ps.buf.queue = [] ∧ ps.outboxOpen = false
    · simp [pumpRun, hc]
    · simp [pumpRun, hc] at h
  | cons ev rest ih =>
    by_cases hc : ps.buf.queue = [] ∧ ps.outboxOpen = false
    · simp [pumpRun, hc]
    · cases ev with
      | cancel => simp [pumpRun, hc] at h
      | recv m =>
        by_cases ho : ps.outboxOpen = true
        · simp only [pumpRun, if_neg hc, if_pos ho] at h ⊢
          exact ih _ h
        · simp only [pumpRun, if_neg hc, if_neg ho] at h ⊢
          exact ih _ h
      | closed =>
        by_cases ho : ps.outboxOpen = true
        · simp only [pumpRun, if_neg hc, if_pos ho] at h ⊢
          exact ih _ h
        · simp only [pumpRun, if_neg hc, if_neg ho] at h ⊢
          exact ih _ h
      | busAccept =>
        rcases hfe : forwardEnv ps.buf with - | ⟨env, b2⟩
        · simp only [pumpRun, if_neg hc, hfe] at h ⊢
          exact ih _ h
        · simp only [pumpRun, if_neg hc, hfe] at h ⊢
          exact ih _ h

/-- A canceled exit can only come from a cancel event in the schedule. -/
theorem pumpRun_canceled (f : FId) (ty : Val → MTy) (ps : PumpState)
    (evs : List PEvent)
    (h : (pumpRun f ty ps evs).2.2 = some PumpExit.canceled) :
    PEvent.cancel ∈ evs := by
  induction evs generalizing ps with
  | nil =>
    by_cases hc : ps.buf.queue = [] ∧ ps.outboxOpen = false <;>
      simp [pumpRun, hc] at h
  | cons ev rest ih =>
    by_cases hc : ps.buf.queue = [] ∧ ps.outboxOpen = false
    · simp [pumpRun, hc] at h
    · cases ev with
      | cancel => exact List.mem_cons_self _ _
      | recv m =>
        refine List.mem_cons_of_mem _ ?_
        by_cases ho : ps.outboxOpen = true
        · simp only [pumpRun, if_neg hc, if_pos ho] at h
          exact ih _ h
        · simp only [pumpRun, if_neg hc, if_neg ho] at h
          exact ih _ h
      | closed =>
        refine List.mem_cons_of_mem _ ?_
        by_cases ho : ps.outboxOpen = true
        · simp only [pumpRun, if_neg hc, if_pos ho] at h
          exact ih _ h
        · simp only [pumpRun, if_neg hc, if_neg ho] at h
          exact ih _ h
      | busAccept =>
        refine List.mem_cons_of_mem _ ?_
        rcases hfe : forwardEnv ps.buf with - | ⟨env, b2⟩
        · simp only [pumpRun, if_neg hc, hfe] at h
          exact ih _ h
        · simp only [pumpRun, if_neg hc, hfe] at h
          exact ih _ h

/-- After the outbox has closed, feeding the bus one accept per pending
envelope drains the whole queue to the bus, in order, and then the pump
returns with the drained exit. -/
theorem pumpRun_drains (f : FId) (ty : Val → MTy) (ps : PumpState)
    (hinv : BufInv ps.buf) (hclosed : ps.outboxOpen = false) :
    pumpRun f ty ps (List.replicate ps.buf.pending.length PEvent.busAccept) =
      (⟨⟨[], 0⟩, false, ps.nextID⟩, ps.buf.pending, some PumpExit.drained) := by
  suffices h : ∀ (l : List Envelope) (ps : PumpState), BufInv ps.buf →
      ps.outboxOpen = false → ps.buf.pending = l →
      pumpRun f ty ps (List.replicate l.length PEvent.busAccept) =
        (⟨⟨[], 0⟩, false, ps.nextID⟩, l, some PumpExit.drained) by
    exact h ps.buf.pending ps hinv hclosed rfl
  intro l
  induction l with
  | nil =>
    intro ps hinv hclosed hp
    have hq : ps.buf.queue = [] := by
      rcases hinv with h | ⟨hq, _⟩
      · exfalso
        have : ps.buf.queue.length - ps.buf.index = 0 := by
          simpa [PumpBuf.pending] using congrArg List.length hp
        omega
      · exact hq
    have hi : ps.buf.index = 0 := by
      rcases hinv with h | ⟨_, hi⟩
      · rw [hq] at h; exact absurd h (Nat.not_lt_zero _)
      · exact hi
    rw [List.length_nil, List.replicate_zero]
    have hps : ps = ⟨⟨[], 0⟩, false, ps.nextID⟩ := by
      cases ps with
      | mk buf o n =>
        cases buf with
        | mk q i =>
          simp only at hq hi hclosed
          rw [hq, hi, hclosed]
    rw [hps]
    simp [pumpRun]
  | cons env rest ih =>
    intro ps hinv hclosed hp
    obtain ⟨b2, hfe, habs, hinv2⟩ := forward_refines ps.buf hinv env rest hp
    have hne : ¬(ps.buf.queue = [] ∧ ps.outboxOpen = false) := by
      rintro ⟨hq, -⟩
      rw [PumpBuf.pending, hq, List.drop_nil] at hp
      simp at hp
    rw [List.length_cons, List.replicate_succ]
    simp only [pumpRun, if_neg hne, hfe]
    rw [ih { ps with buf := b2 } hinv2 hclosed habs]

/-- Claim C6: the pump terminates exactly when the outbox is closed and its
internal FIFO is empty, or when the context is canceled: a drained exit
happens only with an empty queue and a closed outbox; a canceled exit happens
only when the schedule contains a cancellation; and after the outbox closes
with envelopes still pending, the pump keeps running and drains every pending
envelope to the bus, in order, before returning. -/
theorem pump_terminates (f : FId) (ty : Val → MTy) (ps : PumpState)
    (evs : List PEvent) (hinv : BufInv ps.buf) :
    ((pumpRun f ty ps evs).2.2 = some PumpExit.drained →
      (pumpRun f ty ps evs).1.buf.queue = [] ∧
        (pumpRun f ty ps evs).1.outboxOpen = false) ∧
    ((pumpRun f ty ps evs).2.2 = some PumpExit.canceled →
      PEvent.cancel ∈ evs) ∧
    (ps.outboxOpen = false →
      pumpRun f ty ps (List.replicate ps.buf.pending.length PEvent.busAccept) =
        (⟨⟨[], 0⟩, false, ps.nextID⟩, ps.buf.pending, some PumpExit.drained)) :=
  ⟨pumpRun_drained f ty ps evs, pumpRun_canceled f ty ps evs,
    fun hclosed => pumpRun_drains f ty ps hinv hclosed⟩

/-- A concrete pump state used to witness claim C6: the outbox has closed with
two envelopes still pending. -/
def pumpW : PumpState := ⟨⟨[⟨1, 1, 5, some 3⟩, ⟨1, 2, 5, some 4⟩], 0⟩, false, 9⟩

theorem pump_terminates_witness :
    BufInv pumpW.buf ∧
      pumpRun 0 (fun _ => 1) pumpW (List.replicate 2 PEvent.busAccept) =
        (⟨⟨[], 0⟩, false, 9⟩, [⟨1, 1, 5, some 3⟩, ⟨1, 2, 5, some 4⟩],
          some PumpExit.drained) :=
  ⟨by decide, (pump_terminates 0 (fun _ => 1) pumpW [] (by decide)).2.2 rfl⟩

/-! ## The session (`session`, part_007)

The session owns the participant set, the subscription registry
(`subscribersByType`, a map from type key to a member set plus an
`IsFinalized` flag), each participant's own subscription set
(`function.Subscriptions`, mutated by the registry's lazy expansion), and the
inboxes.  Maps are total functions; `dom` records which type keys have an
entry in `subscribersByType` (fields of absent keys are never read by the
operations, which create an entry first).  Inboxes are the lists of payloads
delivered so far. -/

/-- The session state. -/
structure SessionState where
  funcs : Finset FId
  dom : Finset MTy
  members : MTy → Finset FId
  finalized : MTy → Bool
  subsOf : FId → Finset MTy
  inboxes : FId → List Val

/-- `session.subscribers` (part_007 lines 187-199): ensure the registry has an
entry for `t`, creating an empty one whose `IsFinalized` flag is set exactly
when `t` is an interface type. -/
def subscribers (U : TypeUniverse) (st : SessionState) (t : MTy) : SessionState :=
  if t ∈ st.dom then st
  else
    { st with
      dom := insert t st.dom
      members := fun x => if x = t then ∅ else st.members x
      finalized := fun x => if x = t then U.isInterface t else st.finalized x }

/-- `session.onReady` (part_007 lines 97-103): merge the function's
subscriptions into the registry, creating entries as needed.  The Go loop
iterates the subscription map; its net effect is order-independent and is
denoted directly. -/
def onReady (U : TypeUniverse) (st : SessionState) (f : FId) : SessionState :=
  { st with
    dom := st.dom ∪ st.subsOf f
    members := fun t =>
      if t ∈ st.subsOf f then insert f (if t ∈ st.dom then st.members t else ∅)
      else st.members t
    finalized := fun t =>
      if t ∈ st.subsOf f ∧ t ∉ st.dom then U.isInterface t else st.finalized t }

/-- `session.onReturn` (part_007 lines 107-118): delete the function from the
member set of every type in its own subscription set (creating missing
entries, as `s.subscribers(t)` does), then remove it from the session. -/
def onReturn (U : TypeUniverse) (st : SessionState) (f : FId) : SessionState :=
  { st with
    funcs := st.funcs.erase f
    dom := st.dom ∪ st.subsOf f
    members := fun t =>
      if t ∈ st.subsOf f then (if t ∈ st.dom then st.members t else ∅).erase f
      else st.members t
    finalized := fun t =>
      if t ∈ st.subsOf f ∧ t ∉ st.dom then U.isInterface t else st.finalized t }

/-- The union of the member sets of every registered interface type that the
message type `T` implements (the inner additions of the expansion loop in
`session.deliverMessage`, part_007 lines 153-161). -/
def implUnion (U : TypeUniverse) (st : SessionState) (T : MTy) : Finset FId :=
  (st.dom.filter fun i => U.isInterface i = true ∧ U.implements T i = true).biUnion
    st.members

/-- The lazy interface expansion of `session.deliverMessage` (part_007 lines
152-164): fold every member of every matching interface entry into the
concrete type's member set, record the concrete type in each such function's
own subscription set, and mark the entry finalized.  The Go loop iterates the
registry map; its net effect is order-independent and is denoted directly. -/
def expand (U : TypeUniverse) (st : SessionState) (T : MTy) : SessionState :=
  { st with
    members := fun t =>
      if t = T then st.members T ∪ implUnion U st T else st.members t
    subsOf := fun f =>
      if f ∈ implUnion U st T then insert T (st.subsOf f) else st.subsOf f
    finalized := fun t => if t = T then true else st.finalized t }

/-- The registry state after `session.deliverMessage` has looked up the
recipients entry and, unless already finalized, run the expansion step. -/
def afterExpand (U : TypeUniverse) (st : SessionState) (T : MTy) : SessionState :=
  if (subscribers U st T).finalized T then subscribers U st T
  else expand U (subscribers U st T) T

/-- The functions `session.deliverMessage` actually delivers to: every member
of the (finalized) recipients entry except the publisher (part_007 lines
168-171 skip `env.Publisher`). -/
def recipientsOf (U : TypeUniverse) (st : SessionState) (env : Envelope) :
    Finset FId :=
  ((afterExpand U st env.messageType).members env.messageType).erase env.publisher

/-- `session.deliverMessage` (part_007 lines 149-183): resolve and finalize
the recipient set for the envelope's type, then place the message in the
inbox of every recipient other than the publisher. -/
def deliverMessage (U : TypeUniverse) (st : SessionState) (env : Envelope) :
    SessionState :=
  { afterExpand U st env.messageType with
    inboxes := fun f =>
      if f ∈ recipientsOf U st env then
        (afterExpand U st env.messageType).inboxes f ++ [env.message]
      else (afterExpand U st env.messageType).inboxes f }

/-- The set of functions whose own subscription set the delivery of `env`
enlarges: the functions folded in by the expansion step (empty when the
entry was already finalized). -/
def expansionSet (U : TypeUniverse) (st : SessionState) (env : Envelope) :
    Finset FId :=
  if (subscribers U st env.messageType).finalized env.messageType then ∅
  else implUnion U (subscribers U st env.messageType) env.messageType

/-- `f` is subscribed to messages of concrete type `T`: either to `T` itself,
or to some interface type that `T` implements. -/
def SubsNow (U : TypeUniverse) (st : SessionState) (f : FId) (T : MTy) : Prop :=
  T ∈ st.subsOf f ∨
    ∃ i ∈ st.subsOf f, U.isInterface i = true ∧ U.implements T i = true

instance (U : TypeUniverse) (st : SessionState) (f : FId) (T : MTy) :
    Decidable (SubsNow U st f T) := by
  unfold SubsNow; infer_instance

/-! ## The orchestrator loops (`session.run` and its phases)

Each loop is driven by a schedule: the sequence of signals its Go select
receives.  A `returned` signal carries the error the function's behavior
returned (`function.Err`). -/

/-- How one orchestration call ends (`session.run`'s error result): no error,
a participant's own error value (carried verbatim), or the context's
cancellation error. -/
inductive RunResult where
  | ok
  | err (e : Nat)
  | canceled
deriving DecidableEq

/-- A signal the startup barrier (`session.startFuncs`) can receive: context
cancellation, a readiness signal, or an early return. -/
inductive BarEvent where
  | cancel
  | ready (f : FId)
  | returned (f : FId) (e : Option Nat)
deriving DecidableEq

/-- Result of the startup barrier: schedule exhausted with signals still
pending, all of the `pending` budget collected, or an early abort. -/
inductive StartRes where
  | blocked (st : SessionState)
  | finished (st : SessionState)
  | aborted (st : SessionState) (r : RunResult)

/-- `session.startFuncs` (part_007 lines 60-82): collect `pending` signals,
counting down once per received signal, whichever function it came from.
Aborts on cancellation or on a returned error. -/
def startFuncs (U : TypeUniverse) :
    SessionState → Nat → List BarEvent → StartRes
  | st, 0, _ => .finished st
  | st, _ + 1, [] => .blocked st
  | st, pending + 1, ev :: rest =>
    match ev with
    | .cancel => .aborted st .canceled
    | .ready f => startFuncs U (onReady U st f) pending rest
    | .returned f e =>
      match e with
      | some err => .aborted (onReturn U st f) (.err err)
      | none => startFuncs U (onReturn U st f) pending rest

/-- A signal the exchange loop (`session.exchangeMessages`) can receive:
context cancellation, an envelope arriving on the shared bus, or a function's
return. -/
inductive ExEvent where
  | cancel
  | bus (env : Envelope)
  | returned (f : FId) (e : Option Nat)
deriving DecidableEq

/-- Result of the exchange loop: schedule exhausted with functions still
registered, or the loop's return value. -/
inductive ExRes where
  | blocked (st : SessionState)
  | done (st : SessionState) (r : RunResult)

/-- `session.exchangeMessages` (part_007 lines 122-146): while functions
remain, deliver each bus envelope, process returns (an error return ends the
session with exactly that error), and stop on cancellation. -/
def exchangeMessages (U : TypeUniverse) :
    SessionState → List ExEvent → ExRes
  | st, [] => if st.funcs = ∅ then .done st .ok else .blocked st
  | st, ev :: rest =>
    if st.funcs = ∅ then .done st .ok
    else
      match ev with
      | .cancel => .done st .canceled
      | .bus env => exchangeMessages U (deliverMessage U st env) rest
      | .returned f e =>
        match e with
        | some err => .done (onReturn U st f) (.err err)
        | none => exchangeMessages U (onReturn U st f) rest

/-- `session.stopFuncs` (part_007 lines 85-94): after closing every remaining
inbox, receive returned signals (in the order given) until no function
remains; `none` when the schedule runs out first. -/
def stopFuncs (U : TypeUniverse) :
    SessionState → List FId → Option SessionState
  | st, [] => if st.funcs = ∅ then some st else none
  | st, f :: rest =>
    if st.funcs = ∅ then some st else stopFuncs U (onReturn U st f) rest

/-- `session.run` (part_007 lines 34-56): return immediately when there are no
functions; otherwise run the startup barrier, then the exchange loop, and in
every case end with the deferred cancel-and-stop teardown.  `none` models an
execution that blocks forever (a schedule that ends with the session still
waiting). -/
def run (U : TypeUniverse) (st : SessionState) (bar : List BarEvent)
    (ex : List ExEvent) (td : List FId) : Option (RunResult × SessionState) :=
  if st.funcs = ∅ then some (.ok, st)
  else
    match startFuncs U st st.funcs.card bar with
    | .blocked _ => none
    | .aborted st1 r => (stopFuncs U st1 td).map fun st2 => (r, st2)
    | .finished st1 =>
      match exchangeMessages U st1 ex with
      | .blocked _ => none
      | .done st2 r => (stopFuncs U st2 td).map fun st3 => (r, st3)

/-- The session `Run` builds (part_003 lines 15-39): the given functions, an
empty registry, and empty inboxes; each function's subscription set is the set
it will have declared (via `Subscribe`) by the time it signals readiness. -/
def mkSession (fs : List FId) (sub : FId → Finset MTy) : SessionState :=
  { funcs := fs.toFinset
    dom := ∅
    members := fun _ => ∅
    finalized := fun _ => false
    subsOf := sub
    inboxes := fun _ => [] }

/-- The session state once every function in `F` has been merged by
`onReady`: the registry has an entry per subscribed type whose members are
its direct subscribers, interface entries are born finalized, concrete ones
are not, and no message has been delivered. -/
def readyState (U : TypeUniverse) (F : Finset FId) (sub : FId → Finset MTy) :
    SessionState :=
  { funcs := F
    dom := F.biUnion sub
    members := fun t => F.filter fun f => t ∈ sub f
    finalized := fun t => U.isInterface t
    subsOf := sub
    inboxes := fun _ => [] }

/-! ## Registry coherence

The invariant tying the registry to the participants' own subscription sets.
It holds of the post-barrier state and is preserved by delivery and by
processing returns, so it holds whenever a bus envelope is delivered. -/

/-- Coherence of the session's registry:
membership implies the type is in the member's own subscription set, members
are live participants, absent keys have empty member sets, a live
participant's subscriptions are all registered, interface entries are
finalized, a non-finalized (or interface) entry holds exactly the direct
subscribers, and a finalized concrete entry holds exactly the functions
subscribed to the type directly or through an interface it implements. -/
structure Coherent (U : TypeUniverse) (st : SessionState) : Prop where
  mem_sub : ∀ t f, f ∈ st.members t → t ∈ st.subsOf f
  mem_funcs : ∀ t f, f ∈ st.members t → f ∈ st.funcs
  mem_dom : ∀ t, t ∉ st.dom → st.members t = ∅
  sub_dom : ∀ f t, f ∈ st.funcs → t ∈ st.subsOf f → t ∈ st.dom
  fin_iface : ∀ t, t ∈ st.dom → U.isInterface t = true → st.finalized t = true
  mem_unfin : ∀ t f, f ∈ st.funcs →
    (st.finalized t = false ∨ U.isInterface t = true) →
    (f ∈ st.members t ↔ t ∈ st.subsOf f)
  mem_fin : ∀ t f, f ∈ st.funcs → st.finalized t = true →
    U.isInterface t = false → (f ∈ st.members t ↔ SubsNow U st f t)

theorem mem_implUnion (U : TypeUniverse) (st : SessionState) (T : MTy)
    (f : FId) :
    f ∈ implUnion U st T ↔
      ∃ i, i ∈ st.dom ∧ U.isInterface i = true ∧ U.implements T i = true ∧
        f ∈ st.members i := by
  simp only [implUnion, Finset.mem_biUnion, Finset.mem_filter]
  constructor
  · rintro ⟨i, ⟨⟨hd, hi, himpl⟩, hm⟩⟩
    exact ⟨i, hd, hi, himpl, hm⟩
  · rintro ⟨i, hd, hi, himpl, hm⟩
    exact ⟨i, ⟨hd, hi, himpl⟩, hm⟩

/-- The post-barrier state is coherent. -/
theorem inv_readyState (U : TypeUniverse) (F : Finset FId)
    (sub : FId → Finset MTy) : Coherent U (readyState U F sub) where
  mem_sub := by
    intro t f h
    simp only [readyState, Finset.mem_filter] at h ⊢
    exact h.2
  mem_funcs := by
    intro t f h
    simp only [readyState, Finset.mem_filter] at h ⊢
    exact h.1
  mem_dom := by
    intro t h
    simp only [readyState, Finset.mem_biUnion, not_exists] at h
    simp only [readyState]
    ext f
    simp only [Finset.mem_filter, Finset.not_mem_empty, iff_false, not_and]
    intro hf hs
    exact h f ⟨hf, hs⟩
  sub_dom := by
    intro f t hf ht
    simp only [readyState, Finset.mem_biUnion] at hf ht ⊢
    exact ⟨f, hf, ht⟩
  fin_iface := by
    intro t _ h
    simpa [readyState] using h
  mem_unfin := by
    intro t f hf _
    simp only [readyState, Finset.mem_filter] at hf ⊢
    exact ⟨fun h => h.2, fun h => ⟨hf, h⟩⟩
  mem_fin := by
    intro t f _ hfin hiface
    simp only [readyState] at hfin
    rw [hfin] at hiface
    exact absurd hiface (by simp)

/-- Ensuring a registry entry preserves coherence. -/
theorem coherent_subscribers (U : TypeUniverse) (st : SessionState) (t0 : MTy)
    (hInv : Coherent U st) : Coherent U (subscribers U st t0) := by
  by_cases h0 : t0 ∈ st.dom
  · simpa [subscribers, h0] using hInv
  · refine ⟨?_, ?_, ?_, ?_, ?_, ?_, ?_⟩
    · intro t f hm
      simp only [subscribers, if_neg h0] at hm ⊢
      by_cases ht : t = t0
      · rw [if_pos ht] at hm
        exact absurd hm (Finset.not_mem_empty f)
      · rw [if_neg ht] at hm
        exact hInv.mem_sub t f hm
    · intro t f hm
      simp only [subscribers, if_neg h0] at hm ⊢
      by_cases ht : t = t0
      · rw [if_pos ht] at hm
        exact absurd hm (Finset.not_mem_empty f)
      · rw [if_neg ht] at hm
        exact hInv.mem_funcs t f hm
    · intro t ht
      simp only [subscribers, if_neg h0, Finset.mem_insert, not_or] at ht ⊢
      rw [if_neg ht.1]
      exact hInv.mem_dom t ht.2
    · intro f t hf ht
      simp only [subscribers, if_neg h0, Finset.mem_insert] at hf ht ⊢
      exact Or.inr (hInv.sub_dom f t hf ht)
    · intro t ht hi
      simp only [subscribers, if_neg h0, Finset.mem_insert] at ht ⊢
      by_cases heq : t = t0
      · subst heq
        simpa using hi
      · rw [if_neg heq]
        rcases ht with h | h
        · exact absurd h heq
        · exact hInv.fin_iface t h hi
    · intro t f hf hcond
      simp only [subscribers, if_neg h0] at hf hcond ⊢
      by_cases ht : t = t0
      · rw [if_pos ht]
        subst ht
        simp only [Finset.not_mem_empty, false_iff]
        intro hs
        exact h0 (hInv.sub_dom f t hf hs)
      · rw [if_neg ht] at hcond ⊢
        exact hInv.mem_unfin t f hf hcond
    · intro t f hf hfin hiface
      simp only [subscribers, if_neg h0] at hf hfin hiface ⊢
      by_cases ht : t = t0
      · rw [if_pos ht] at hfin
        subst ht
        rw [hfin] at hiface
        exact absurd hiface (by simp)
      · rw [if_neg ht] at hfin ⊢
        exact hInv.mem_fin t f hf hfin hiface

theorem mem_subsOf_expand (U : TypeUniverse) (st : SessionState) (T t : MTy)
    (f : FId) :
    t ∈ (expand U st T).subsOf f ↔
      t ∈ st.subsOf f ∨ (t = T ∧ f ∈ implUnion U st T) := by
  simp only [expand]
  by_cases hfA : f ∈ implUnion U st T
  · rw [if_pos hfA, Finset.mem_insert]
    constructor
    · rintro (h | h)
      exacts [Or.inr ⟨h, hfA⟩, Or.inl h]
    · rintro (h | ⟨h, -⟩)
      exacts [Or.inr h, Or.inl h]
  · rw [if_neg hfA]
    constructor
    · exact Or.inl
    · rintro (h | ⟨-, h⟩)
      exacts [h, absurd h hfA]

/-- Before expansion runs for `T`, membership of the union the loop builds is
exactly subscription to `T` directly or through an implemented interface. -/
theorem mem_expand_char (U : TypeUniverse) (st : SessionState) (T : MTy)
    (hInv : Coherent U st) (hfin : st.finalized T = false) (f : FId)
    (hf : f ∈ st.funcs) :
    f ∈ st.members T ∪ implUnion U st T ↔ SubsNow U st f T := by
  constructor
  · intro h
    rcases Finset.mem_union.mp h with h | h
    · exact Or.inl (hInv.mem_sub T f h)
    · rcases (mem_implUnion U st T f).mp h with ⟨i, _, hif, himpl, hm⟩
      exact Or.inr ⟨i, hInv.mem_sub i f hm, hif, himpl⟩
  · intro h
    rcases h with h | ⟨i, hi, hif, himpl⟩
    · exact Finset.mem_union_left _
        ((hInv.mem_unfin T f hf (Or.inl hfin)).mpr h)
    · refine Finset.mem_union_right _ ((mem_implUnion U st T f).mpr
        ⟨i, hInv.sub_dom f i hf hi, hif, himpl, ?_⟩)
      exact (hInv.mem_unfin i f hf (Or.inr hif)).mpr hi

theorem subsNow_expand (U : TypeUniverse) (st : SessionState) (T t : MTy)
    (f : FId) (hTif : U.isInterface T = false) (ht : t ≠ T) :
    SubsNow U (expand U st T) f t ↔ SubsNow U st f t := by
  unfold SubsNow
  constructor
  · rintro (h | ⟨i, hi, hif, himpl⟩)
    · rcases (mem_subsOf_expand U st T t f).mp h with h | ⟨heq, -⟩
      · exact Or.inl h
      · exact absurd heq ht
    · rcases (mem_subsOf_expand U st T i f).mp hi with h | ⟨heq, -⟩
      · exact Or.inr ⟨i, h, hif, himpl⟩
      · rw [heq, hTif] at hif
        exact absurd hif (by simp)
  · rintro (h | ⟨i, hi, hif, himpl⟩)
    · exact Or.inl ((mem_subsOf_expand U st T t f).mpr (Or.inl h))
    · exact Or.inr ⟨i, (mem_subsOf_expand U st T i f).mpr (Or.inl hi), hif,
        himpl⟩

theorem subsNow_expand_self (U : TypeUniverse) (st : SessionState) (T : MTy)
    (f : FId) (hInv : Coherent U st) (hTif : U.isInterface T = false) :
    SubsNow U (expand U st T) f T ↔ SubsNow U st f T := by
  unfold SubsNow
  constructor
  · rintro (h | ⟨i, hi, hif, himpl⟩)
    · rcases (mem_subsOf_expand U st T T f).mp h with h | ⟨-, hA⟩
      · exact Or.inl h
      · rcases (mem_implUnion U st T f).mp hA with ⟨i, _, hif, himpl, hm⟩
        exact Or.inr ⟨i, hInv.mem_sub i f hm, hif, himpl⟩
    · rcases (mem_subsOf_expand U st T i f).mp hi with h | ⟨heq, -⟩
      · exact Or.inr ⟨i, h, hif, himpl⟩
      · rw [heq, hTif] at hif
        exact absurd hif (by simp)
  · rintro (h | ⟨i, hi, hif, himpl⟩)
    · exact Or.inl ((mem_subsOf_expand U st T T f).mpr (Or.inl h))
    · exact Or.inr ⟨i, (mem_subsOf_expand U st T i f).mpr (Or.inl hi), hif,
        himpl⟩

/-- The expansion step preserves coherence. -/
theorem coherent_expand (U : TypeUniverse) (st : SessionState) (T : MTy)
    (hInv : Coherent U st) (hdom : T ∈ st.dom)
    (hfin : st.finalized T = false) : Coherent U (expand U st T) := by
  have hTif : U.isInterface T = false := by
    rcases h : U.isInterface T with - | -
    · rfl
    · rw [hInv.fin_iface T hdom h] at hfin
      exact absurd hfin (by simp)
  refine ⟨?_, ?_, ?_, ?_, ?_, ?_, ?_⟩
  · intro t f hm
    rw [mem_subsOf_expand]
    simp only [expand] at hm
    by_cases ht : t = T
    · rw [if_pos ht] at hm
      subst ht
      rcases Finset.mem_union.mp hm with h | h
      · exact Or.inl (hInv.mem_sub t f h)
      · exact Or.inr ⟨rfl, h⟩
    · rw [if_neg ht] at hm
      exact Or.inl (hInv.mem_sub t f hm)
  · intro t f hm
    simp only [expand] at hm ⊢
    by_cases ht : t = T
    · rw [if_pos ht] at hm
      rcases Finset.mem_union.mp hm with h | h
      · exact hInv.mem_funcs T f h
      · rcases (mem_implUnion U st T f).mp h with ⟨i, _, _, _, hmi⟩
        exact hInv.mem_funcs i f hmi
    · rw [if_neg ht] at hm
      exact hInv.mem_funcs t f hm
  · intro t ht
    simp only [expand] at ht ⊢
    have hne : t ≠ T := fun h => ht (h ▸ hdom)
    rw [if_neg hne]
    exact hInv.mem_dom t ht
  · intro f t hf hts
    simp only [expand] at hf hts ⊢
    rcases (mem_subsOf_expand U st T t f).mp hts with h | ⟨heq, -⟩
    · exact hInv.sub_dom f t hf h
    · exact heq ▸ hdom
  · intro t ht hi
    simp only [expand] at ht ⊢
    by_cases heq : t = T
    · rw [if_pos heq]
    · rw [if_neg heq]
      exact hInv.fin_iface t ht hi
  · intro t f hf hcond
    simp only [expand] at hf hcond ⊢
    by_cases ht : t = T
    · subst ht
      rw [if_pos rfl] at hcond
      rcases hcond with h | h
      · exact absurd h (by simp)
      · rw [hTif] at h
        exact absurd h (by simp)
    · rw [if_neg ht] at hcond ⊢
      by_cases hfA : f ∈ implUnion U st T
      · rw [if_pos hfA, Finset.mem_insert]
        rw [hInv.mem_unfin t f hf hcond]
        constructor
        · exact fun h => Or.inr h
        · rintro (h | h)
          · exact absurd h ht
          · exact h
      · rw [if_neg hfA]
        exact hInv.mem_unfin t f hf hcond
  · intro t f hf hfint hit
    simp only [expand] at hf hfint ⊢
    by_cases ht : t = T
    · subst ht
      rw [if_pos rfl]
      exact Iff.trans (mem_expand_char U st t hInv hfin f hf)
        (subsNow_expand_self U st t f hInv hTif).symm
    · rw [if_neg ht] at hfint ⊢
      exact Iff.trans (hInv.mem_fin t f hf hfint hit)
        (subsNow_expand U st T t f hTif ht).symm

theorem subscribers_dom_self (U : TypeUniverse) (st : SessionState) (t : MTy) :
    t ∈ (subscribers U st t).dom := by
  by_cases h : t ∈ st.dom <;> simp [subscribers, h]

/-- Resolving and finalizing the recipients entry preserves coherence. -/
theorem coherent_afterExpand (U : TypeUniverse) (st : SessionState) (T : MTy)
    (hInv : Coherent U st) : Coherent U (afterExpand U st T) := by
  unfold afterExpand
  have h1 : Coherent U (subscribers U st T) := coherent_subscribers U st T hInv
  by_cases hf : (subscribers U st T).finalized T = true
  · rw [if_pos hf]
    exact h1
  · rw [if_neg hf]
    exact coherent_expand U (subscribers U st T) T h1
      (subscribers_dom_self U st T) (by simpa using hf)

/-- Delivery preserves coherence (it only appends to inboxes beyond the
registry finalization step). -/
theorem coherent_deliver (U : TypeUniverse) (st : SessionState)
    (env : Envelope) (hInv : Coherent U st) :
    Coherent U (deliverMessage U st env) := by
  have h2 := coherent_afterExpand U st env.messageType hInv
  exact ⟨h2.mem_sub, h2.mem_funcs, h2.mem_dom, h2.sub_dom, h2.fin_iface,
    h2.mem_unfin, h2.mem_fin⟩

/-- Processing a live function's return preserves coherence. -/
theorem coherent_onReturn (U : TypeUniverse) (st : SessionState) (f0 : FId)
    (hInv : Coherent U st) (hf0 : f0 ∈ st.funcs) :
    Coherent U (onReturn U st f0) := by
  have hsub : ∀ t, t ∈ st.subsOf f0 → t ∈ st.dom :=
    fun t ht => hInv.sub_dom f0 t hf0 ht
  have hdom : st.dom ∪ st.subsOf f0 = st.dom := Finset.union_eq_left.mpr hsub
  refine ⟨?_, ?_, ?_, ?_, ?_, ?_, ?_⟩
  · intro t f hm
    simp only [onReturn] at hm ⊢
    by_cases hts : t ∈ st.subsOf f0
    · rw [if_pos hts, if_pos (hsub t hts)] at hm
      exact hInv.mem_sub t f (Finset.mem_of_mem_erase hm)
    · rw [if_neg hts] at hm
      exact hInv.mem_sub t f hm
  · intro t f hm
    simp only [onReturn] at hm ⊢
    rw [Finset.mem_erase]
    by_cases hts : t ∈ st.subsOf f0
    · rw [if_pos hts, if_pos (hsub t hts)] at hm
      exact ⟨(Finset.mem_erase.mp hm).1,
        hInv.mem_funcs t f (Finset.mem_of_mem_erase hm)⟩
    · rw [if_neg hts] at hm
      refine ⟨?_, hInv.mem_funcs t f hm⟩
      intro heq
      exact hts (heq ▸ hInv.mem_sub t f hm)
  · intro t ht
    simp only [onReturn, hdom] at ht ⊢
    have hts : t ∉ st.subsOf f0 := fun hc => ht (hsub t hc)
    rw [if_neg hts]
    exact hInv.mem_dom t ht
  · intro f t hf hts
    simp only [onReturn, hdom] at hf hts ⊢
    exact hInv.sub_dom f t (Finset.mem_of_mem_erase hf) hts
  · intro t ht hi
    simp only [onReturn, hdom] at ht ⊢
    rw [if_neg (by simp [hsub t, ht] : ¬(t ∈ st.subsOf f0 ∧ t ∉ st.dom))]
    exact hInv.fin_iface t ht hi
  · intro t f hf hcond
    simp only [onReturn] at hf hcond ⊢
    obtain ⟨hne, hfm⟩ := Finset.mem_erase.mp hf
    have hcond2 : st.finalized t = false ∨ U.isInterface t = true := by
      rcases hcond with h | h
      · left
        by_cases hx : t ∈ st.subsOf f0 ∧ t ∉ st.dom
        · exact absurd (hsub t hx.1) hx.2
        · rwa [if_neg hx] at h
      · exact Or.inr h
    by_cases hts : t ∈ st.subsOf f0
    · rw [if_pos hts, if_pos (hsub t hts), Finset.mem_erase]
      rw [hInv.mem_unfin t f hfm hcond2]
      exact ⟨fun h => h.2, fun h => ⟨hne, h⟩⟩
    · rw [if_neg hts]
      exact hInv.mem_unfin t f hfm hcond2
  · intro t f hf hfint hit
    simp only [onReturn] at hf hfint ⊢
    obtain ⟨hne, hfm⟩ := Finset.mem_erase.mp hf
    have hfin2 : st.finalized t = true := by
      by_cases hx : t ∈ st.subsOf f0 ∧ t ∉ st.dom
      · exact absurd (hsub t hx.1) hx.2
      · rwa [if_neg hx] at hfint
    by_cases hts : t ∈ st.subsOf f0
    · rw [if_pos hts, if_pos (hsub t hts), Finset.mem_erase]
      rw [hInv.mem_fin t f hfm hfin2 hit]
      exact ⟨fun h => h.2, fun h => ⟨hne, h⟩⟩
    · rw [if_neg hts]
      exact hInv.mem_fin t f hfm hfin2 hit

theorem subsOf_subscribers (U : TypeUniverse) (st : SessionState) (t : MTy) :
    (subscribers U st t).subsOf = st.subsOf := by
  unfold subscribers
  split <;> rfl

theorem funcs_subscribers (U : TypeUniverse) (st : SessionState) (t : MTy) :
    (subscribers U st t).funcs = st.funcs := by
  unfold subscribers
  split <;> rfl

theorem inboxes_afterExpand (U : TypeUniverse) (st : SessionState) (T : MTy) :
    (afterExpand U st T).inboxes = st.inboxes := by
  unfold afterExpand expand subscribers
  split <;> split <;> rfl

/-- After the lookup-and-finalize step, membership of the recipients entry is
exactly subscription (direct or through an implemented interface) as it stood
before the delivery. -/
theorem members_afterExpand (U : TypeUniverse) (st : SessionState) (T : MTy)
    (hInv : Coherent U st) (hconc : U.isInterface T = false) (f : FId)
    (hf : f ∈ st.funcs) :
    (f ∈ (afterExpand U st T).members T ↔ SubsNow U st f T) := by
  unfold afterExpand
  have h1 : Coherent U (subscribers U st T) := coherent_subscribers U st T hInv
  have hsn : SubsNow U (subscribers U st T) f T ↔ SubsNow U st f T := by
    unfold SubsNow
    rw [subsOf_subscribers]
  by_cases hfc : (subscribers U st T).finalized T = true
  · rw [if_pos hfc]
    have hd : T ∈ st.dom := by
      by_contra hd
      simp [subscribers, hd, hconc] at hfc
    rw [show subscribers U st T = st from by simp [subscribers, hd]] at hfc ⊢
    exact hInv.mem_fin T f hf hfc hconc
  · rw [if_neg hfc]
    have hfin1 : (subscribers U st T).finalized T = false := by
      simpa using hfc
    have hchar := mem_expand_char U (subscribers U st T) T h1 hfin1 f
      (by rw [funcs_subscribers]; exact hf)
    rw [show (expand U (subscribers U st T) T).members T =
        (subscribers U st T).members T ∪ implUnion U (subscribers U st T) T
      from by simp [expand]]
    exact Iff.trans hchar hsn

/-- What one delivery does to a live participant's inbox: exactly one copy of
the message is appended when the participant is a subscriber other than the
publisher, and nothing otherwise. -/
theorem deliverMessage_inboxes (U : TypeUniverse) (st : SessionState)
    (env : Envelope) (hInv : Coherent U st)
    (hconc : U.isInterface env.messageType = false) (f : FId)
    (hf : f ∈ st.funcs) :
    (deliverMessage U st env).inboxes f =
      st.inboxes f ++
        (if f ≠ env.publisher ∧ SubsNow U st f env.messageType then
          [env.message] else []) := by
  have hchar := members_afterExpand U st env.messageType hInv hconc f hf
  simp only [deliverMessage]
  by_cases hr : f ∈ recipientsOf U st env
  · obtain ⟨hne, hm⟩ := Finset.mem_erase.mp hr
    rw [if_pos hr, inboxes_afterExpand,
      if_pos ⟨hne, hchar.mp hm⟩]
  · rw [if_neg hr, inboxes_afterExpand, if_neg ?hc, List.append_nil]
    case hc =>
      rintro ⟨hne, hs⟩
      exact hr (Finset.mem_erase.mpr ⟨hne, hchar.mpr hs⟩)

/-- Claim C2: for every envelope fanned out, the publishing participant is
never among the recipients, and its own inbox is unchanged by the delivery —
whatever it subscribes to. -/
theorem no_self_delivery (U : TypeUniverse) (st : SessionState)
    (env : Envelope) :
    env.publisher ∉ recipientsOf U st env ∧
      (deliverMessage U st env).inboxes env.publisher =
        st.inboxes env.publisher := by
  refine ⟨Finset.not_mem_erase _ _, ?_⟩
  simp only [deliverMessage]
  rw [if_neg (show env.publisher ∉ recipientsOf U st env from
    Finset.not_mem_erase _ _), inboxes_afterExpand]

/-- Claim C3: in a coherent session state (the post-barrier state and
everything delivery and returns produce from it), delivering a message of
concrete type `T` appends exactly one copy to the inbox of every live
participant other than the publisher that is subscribed to `T` directly or to
an interface `T` implements — and nothing to anyone else's. -/
theorem deliver_exactly_once (U : TypeUniverse) (st : SessionState)
    (env : Envelope) (f : FId) (hInv : Coherent U st)
    (hconc : U.isInterface env.messageType = false) (hf : f ∈ st.funcs)
    (hne : f ≠ env.publisher) :
    (deliverMessage U st env).inboxes f =
      st.inboxes f ++
        (if SubsNow U st f env.messageType then [env.message] else []) := by
  rw [deliverMessage_inboxes U st env hInv hconc f hf]
  by_cases hs : SubsNow U st f env.messageType
  · rw [if_pos hs, if_pos ⟨hne, hs⟩]
  · rw [if_neg hs, if_neg (fun hc => hs hc.2)]

/-- A universe with one interface type (key 0) that every message type
implements, as Go's `any` does. -/
def anyU : TypeUniverse := ⟨fun t => t == 0, fun _ i => i == 0⟩

/-- Participant 1 subscribes both to the `any` interface and to the concrete
type 5; participant 2 subscribes to nothing. -/
def subA : FId → Finset MTy := fun f => if f = 1 then {0, 5} else ∅

/-- The post-barrier state of a session with participants 1 and 2. -/
def stA : SessionState := readyState anyU {1, 2} subA

theorem deliver_exactly_once_witness :
    (deliverMessage anyU stA ⟨2, 7, 5, some 9⟩).inboxes 1 = [some 9] := by
  have h := deliver_exactly_once anyU stA ⟨2, 7, 5, some 9⟩ 1
    (inv_readyState anyU {1, 2} subA) (by decide) (by decide) (by decide)
  rw [h, if_pos (by decide : SubsNow anyU stA 1 5)]
  rfl

/-- Claim C10: a participant subscribed to the universal/any interface type
receives a published nil/empty payload as a message: the pump stamps the
payload with its runtime type, the lazy expansion resolves the any-subscriber
as a recipient, and delivery appends the payload to its inbox, so the inbox
observably grows by one entry. -/
theorem nil_payload_delivered (U : TypeUniverse) (st : SessionState) (p : FId)
    (id : Nat) (ty : Val → MTy) (f : FId) (anyT : MTy)
    (hInv : Coherent U st) (hconc : U.isInterface (ty none) = false)
    (hf : f ∈ st.funcs) (hne : f ≠ p) (hsub : anyT ∈ st.subsOf f)
    (hiface : U.isInterface anyT = true)
    (himpl : U.implements (ty none) anyT = true) :
    (deliverMessage U st (stamp p id ty none)).inboxes f =
      st.inboxes f ++ [none] := by
  have h := deliverMessage_inboxes U st (stamp p id ty none) hInv hconc f hf
  rw [h, if_pos ⟨hne, Or.inr ⟨anyT, hsub, hiface, himpl⟩⟩]
  rfl

theorem nil_payload_delivered_witness :
    (deliverMessage anyU stA (stamp 2 41 (fun _ => 5) none)).inboxes 1 =
      [none] := by
  have h := nil_payload_delivered anyU stA 2 41 (fun _ => 5) 1 0
    (inv_readyState anyU {1, 2} subA) (by decide) (by decide) (by decide)
    (by decide) (by decide) (by decide)
  rw [h]
  rfl

/-- Claim C9: once `session.onReturn` has processed a participant's returned
signal, the participant is a member of no per-type subscriber set — the
hypothesis is the coherence fact (preserved by every session operation,
including the expansion step, which records each folded-in concrete type in
the participant's own subscription set) that membership implies the type is
in the member's own set, which is exactly the set eviction iterates. -/
theorem unregister_complete (U : TypeUniverse) (st : SessionState) (f : FId)
    (t : MTy) (h : ∀ t2 g, g ∈ st.members t2 → t2 ∈ st.subsOf g) :
    f ∉ (onReturn U st f).members t := by
  simp only [onReturn]
  by_cases hts : t ∈ st.subsOf f
  · rw [if_pos hts]
    exact Finset.not_mem_erase f _
  · rw [if_neg hts]
    intro hm
    exact hts (h t f hm)

/-- Participant 1 subscribes only to the `any` interface; participant 2 to
nothing. -/
def subB : FId → Finset MTy := fun f => if f = 1 then {0} else ∅

/-- The post-barrier state of that session. -/
def stB0 : SessionState := readyState anyU {1, 2} subB

/-- The state after participant 2 has published a message of concrete type 5:
the expansion step folded participant 1 into the subscriber set of type 5 and
recorded type 5 in participant 1's own subscription set. -/
def stB : SessionState := deliverMessage anyU stB0 ⟨2, 7, 5, some 9⟩

theorem unregister_complete_witness :
    1 ∉ (onReturn anyU stB 1).members 5 ∧
      1 ∉ (onReturn anyU stB 1).members 0 :=
  ⟨unregister_complete anyU stB 1 5
      (coherent_deliver anyU stB0 ⟨2, 7, 5, some 9⟩
        (inv_readyState anyU {1, 2} subB)).mem_sub,
    unregister_complete anyU stB 1 0
      (coherent_deliver anyU stB0 ⟨2, 7, 5, some 9⟩
        (inv_readyState anyU {1, 2} subB)).mem_sub⟩

/-- Claim C4, counterexample: a participant's subscription set is not
immutable once it is ready — delivering a type-5 message to the session in
which participant 1 (ready, subscribed to the `any` interface) lives makes
the expansion step add the concrete type 5 to participant 1's own
subscription set. -/
theorem subs_not_immutable_cex :
    ¬ (deliverMessage anyU stB0 ⟨2, 7, 5, some 9⟩).subsOf 1 =
        stB0.subsOf 1 := by decide

/-- Claim C4, amended: after readiness no session operation ever removes
from a participant's subscription set, and the only addition is made by the
delivery expansion step, which adds the delivered message's concrete type to
exactly the participants it folds in (those subscribed to an interface the
type implements); processing ready or returned signals never changes any
subscription set. -/
theorem subs_growth_only (U : TypeUniverse) (st : SessionState)
    (env : Envelope) (g f : FId) :
    ((deliverMessage U st env).subsOf f =
      if f ∈ expansionSet U st env then insert env.messageType (st.subsOf f)
      else st.subsOf f) ∧
    (onReturn U st g).subsOf f = st.subsOf f ∧
    (onReady U st g).subsOf f = st.subsOf f ∧
    st.subsOf f ⊆ (deliverMessage U st env).subsOf f := by
  have h1 : (deliverMessage U st env).subsOf f =
      if f ∈ expansionSet U st env then insert env.messageType (st.subsOf f)
      else st.subsOf f := by
    simp only [deliverMessage, afterExpand, expansionSet]
    by_cases hfc : (subscribers U st env.messageType).finalized
        env.messageType = true
    · simp [hfc, subsOf_subscribers]
    · simp [hfc, expand, subsOf_subscribers]
  refine ⟨h1, rfl, rfl, ?_⟩
  rw [h1]
  by_cases hfe : f ∈ expansionSet U st env
  · rw [if_pos hfe]
    exact Finset.subset_insert _ _
  · rw [if_neg hfe]

/-- Claim C7: with zero participant functions, `Run` returns immediately with
no error and an untouched session, whatever the schedules hold — including a
context whose deadline has already expired (a schedule that begins with a
cancellation event). -/
theorem run_zero_funcs (U : TypeUniverse) (sub : FId → Finset MTy)
    (bar : List BarEvent) (ex : List ExEvent) (td : List FId) :
    run U (mkSession [] sub) bar ex td =
      some (RunResult.ok, mkSession [] sub) := by
  simp [run, mkSession]

/-- An exchange-loop error is exactly the error some participant's returned
signal carried. -/
theorem exchange_err_mem (U : TypeUniverse) (st : SessionState)
    (ex : List ExEvent) (st2 : SessionState) (e : Nat)
    (h : exchangeMessages U st ex = .done st2 (.err e)) :
    ∃ f, ExEvent.returned f (some e) ∈ ex := by
  induction ex generalizing st with
  | nil =>
    by_cases hf : st.funcs = ∅ <;> simp [exchangeMessages, hf] at h
  | cons ev rest ih =>
    by_cases hf : st.funcs = ∅
    · simp [exchangeMessages, hf] at h
    · cases ev with
      | cancel => simp [exchangeMessages, hf] at h
      | bus env =>
        simp only [exchangeMessages, if_neg hf] at h
        obtain ⟨f, hm⟩ := ih _ h
        exact ⟨f, List.mem_cons_of_mem _ hm⟩
      | returned f eo =>
        cases eo with
        | some err =>
          simp only [exchangeMessages, if_neg hf] at h
          cases h
          exact ⟨f, List.mem_cons_self _ _⟩
        | none =>
          simp only [exchangeMessages, if_neg hf] at h
          obtain ⟨g, hm⟩ := ih _ h
          exact ⟨g, List.mem_cons_of_mem _ hm⟩

/-- When teardown completes, no function remains registered. -/
theorem stopFuncs_empty (U : TypeUniverse) (st : SessionState) (td : List FId)
    (st3 : SessionState) (h : stopFuncs U st td = some st3) :
    st3.funcs = ∅ := by
  induction td generalizing st with
  | nil =>
    by_cases hf : st.funcs = ∅
    · simp only [stopFuncs, if_pos hf] at h
      cases h
      exact hf
    · simp [stopFuncs, hf] at h
  | cons f rest ih =>
    by_cases hf : st.funcs = ∅
    · simp only [stopFuncs, if_pos hf] at h
      cases h
      exact hf
    · simp only [stopFuncs, if_neg hf] at h
      exact ih _ h

/-- Claim C8: when a participant's behavior returns error `e` and the
exchange loop ends with it, that error came verbatim from some participant's
returned signal, `run` surfaces exactly that error value, and the deferred
teardown has waited for every remaining participant (no function remains
registered in the final state). -/
theorem run_propagates_participant_error (U : TypeUniverse)
    (st0 st1 st2 st3 : SessionState) (bar : List BarEvent) (ex : List ExEvent)
    (td : List FId) (e : Nat)
    (hne : st0.funcs ≠ ∅)
    (hbar : startFuncs U st0 st0.funcs.card bar = .finished st1)
    (hex : exchangeMessages U st1 ex = .done st2 (.err e))
    (htd : stopFuncs U st2 td = some st3) :
    (∃ f, ExEvent.returned f (some e) ∈ ex) ∧
      run U st0 bar ex td = some (RunResult.err e, st3) ∧
      st3.funcs = ∅ := by
  refine ⟨exchange_err_mem U st1 ex st2 e hex, ?_,
    stopFuncs_empty U st2 td st3 htd⟩
  simp only [run, if_neg hne, hbar, hex, htd, Option.map_some']

/-- No participant subscribes to anything. -/
def subN : FId → Finset MTy := fun _ => ∅

/-- A fresh session with participants 0 and 1. -/
def stC : SessionState := mkSession [0, 1] subN

theorem run_propagates_participant_error_witness :
    (∃ f, ExEvent.returned f (some 7) ∈ [ExEvent.returned 0 (some 7)]) ∧
      run anyU stC [.ready 0, .ready 1] [.returned 0 (some 7)] [1] =
        some (RunResult.err 7,
          onReturn anyU
            (onReturn anyU (onReady anyU (onReady anyU stC 0) 1) 0) 1) ∧
      (onReturn anyU
          (onReturn anyU (onReady anyU (onReady anyU stC 0) 1) 0) 1).funcs =
        ∅ :=
  run_propagates_participant_error anyU stC
    (onReady anyU (onReady anyU stC 0) 1)
    (onReturn anyU (onReady anyU (onReady anyU stC 0) 1) 0)
    (onReturn anyU (onReturn anyU (onReady anyU (onReady anyU stC 0) 1) 0) 1)
    [.ready 0, .ready 1] [.returned 0 (some 7)] [1] 7
    (by decide) rfl rfl rfl

/-- Participant 1 subscribes to concrete type 5; participants 0 and 2 to
nothing. -/
def subD : FId → Finset MTy := fun f => if f = 1 then {5} else ∅

/-- A fresh session with participants 0, 1 and 2. -/
def stD : SessionState := mkSession [0, 1, 2] subD

/-- Claim C1, evaluating the code at the failing schedule: the barrier counts
`len(funcs)` signals without distinguishing senders, so participant 0's
ready-then-returned pair plus participant 1's ready signal exhaust the budget
of 3 while participant 2 has neither reached `Ready` nor returned (no event
of the barrier schedule mentions participant 2); the exchange phase then
starts the pumps and delivers participant 2's published message to
participant 1's inbox. -/
theorem barrier_leak_eval :
    2 ∈ stD.funcs ∧
      BarEvent.ready 2 ∉ [BarEvent.ready 0, BarEvent.returned 0 none,
        BarEvent.ready 1] ∧
      (run anyU stD [.ready 0, .returned 0 none, .ready 1]
          [.bus ⟨2, 1, 5, some 9⟩, .cancel] [1, 2]).map
          (fun p => (p.1, p.2.inboxes 1)) =
        some (RunResult.canceled, [some 9]) := by
  refine ⟨by decide, by decide, ?_⟩
  decide
